import Mathlib

/-!
Verification of the step-extraction core of the cell-irreversibility
repository (src/steps.py): validation of the tracks table, single-lag and
multi-lag displacement extraction, and the per-lag summary.

Tables are modelled as lists of typed records together with the list of
column names; float64 columns are modelled as rationals; pandas/ValueError
failures are modelled with an Except monad.
-/

namespace CellIrrev

/-- A row of the input tracks table: one observation of one cell at one
frame (columns cell_id, frame, t_min, x_um, y_um of src/steps.py). Times and
positions stand for the float64 values. -/
structure TrackRow where
  cell_id : Int
  frame : Int
  t_min : ℚ
  x_um : ℚ
  y_um : ℚ
deriving DecidableEq

/-- A row of the output steps table: the columns of the DataFrame built in
compute_steps_for_tau of src/steps.py. -/
structure Step where
  cell_id : Int
  frame_start : Int
  t_start_min : ℚ
  frame_end : Int
  t_end_min : ℚ
  dx_um : ℚ
  dy_um : ℚ
  tau_frames : Int
  tau_min : ℚ
deriving DecidableEq

/-- A row of the summary table of summary_by_tau. -/
structure SummaryRow where
  tau_frames : Int
  n_steps : Nat
  n_cells : Nat
  median_tau_min : ℚ
deriving DecidableEq

/-- The failures of the module: validate_tracks raises ValueError naming the
sorted missing columns (the spec calls this MissingColumns),
compute_steps_for_tau raises ValueError for a lag below one (the spec calls
this InvalidLag), and pandas.concat raises ValueError when handed no objects
to concatenate. -/
inductive StepsError where
  | missingColumns (names : List String)
  | invalidLag
  | noObjectsToConcatenate
deriving DecidableEq

/-- An input table: its column names and its rows. A table whose column set
misses a required column is rejected before any row is read, so the rows
component only carries meaning for valid tables. -/
structure RawTable where
  cols : List String
  rows : List TrackRow
deriving DecidableEq

/-- REQUIRED_TRACK_COLS of src/steps.py. -/
def REQUIRED_TRACK_COLS : List String :=
  ["cell_id", "frame", "t_min", "x_um", "y_um"]

/-- Lexicographic comparison of character lists by code point: the order the
Python builtin sorted uses on strings. -/
def charListLe : List Char → List Char → Bool
  | [], _ => true
  | _ :: _, [] => false
  | a :: as, b :: bs =>
    if a.toNat < b.toNat then true
    else if b.toNat < a.toNat then false
    else charListLe as bs

/-- String comparison by code points, as Python sorted orders strings. -/
def strLe (a b : String) : Prop := charListLe a.data b.data = true

instance : DecidableRel strLe := fun a b =>
  inferInstanceAs (Decidable (charListLe a.data b.data = true))

instance : IsTotal String strLe where
  total a b := by
    show charListLe a.data b.data = true ∨ charListLe b.data a.data = true
    generalize a.data = as
    generalize b.data = bs
    induction as generalizing bs with
    | nil => left; rfl
    | cons a as ih =>
      cases bs with
      | nil => right; rfl
      | cons b bs =>
        rcases Nat.lt_trichotomy a.toNat b.toNat with h | h | h
        · left; simp [charListLe, h]
        · have h' : ¬ a.toNat < b.toNat := by omega
          have h'' : ¬ b.toNat < a.toNat := by omega
          rcases ih bs with hc | hc
          · left; simp [charListLe, h', h'', hc]
          · right; simp [charListLe, h', h'', hc]
        · right; simp [charListLe, h]

instance : IsTrans String strLe where
  trans a b c hab hbc := by
    revert hab hbc
    show charListLe a.data b.data = true → charListLe b.data c.data = true →
      charListLe a.data c.data = true
    generalize a.data = as
    generalize b.data = bs
    generalize c.data = cs
    induction as generalizing bs cs with
    | nil => intro _ _; rfl
    | cons a as ih =>
      intro h1 h2
      cases bs with
      | nil => simp [charListLe] at h1
      | cons b bs =>
        cases cs with
        | nil => simp [charListLe] at h2
        | cons c cs =>
          simp only [charListLe] at h1 h2 ⊢
          by_cases hab : a.toNat < b.toNat <;> by_cases hbc : b.toNat < c.toNat <;>
            simp [hab, hbc] at h1 h2 ⊢
          · omega
          · have hcb : b.toNat ≤ c.toNat := h2.1
            have : a.toNat < c.toNat := by omega
            simp [this]
          · have hba : a.toNat ≤ b.toNat := h1.1
            have : a.toNat < c.toNat := by omega
            simp [this]
          · have hba : a.toNat ≤ b.toNat := h1.1
            have hcb : b.toNat ≤ c.toNat := h2.1
            have hac : ¬ a.toNat < c.toNat := by omega
            have hca : ¬ c.toNat < a.toNat := by omega
            simp [hac, hca]
            exact ⟨by omega, ih bs cs h1.2 h2.2⟩

/-- The set difference of required minus present columns, sorted as the
Python builtin sorted orders the names for the error message. -/
def missingOf (t : RawTable) : List String :=
  List.insertionSort strLe (REQUIRED_TRACK_COLS.filter (fun c => !(t.cols.contains c)))

/-- validate_tracks of src/steps.py: the set difference of required minus
present columns, reported sorted in the error when non-empty. -/
def validate_tracks (t : RawTable) : Except StepsError Unit :=
  if (missingOf t).isEmpty then Except.ok ()
  else Except.error (StepsError.missingColumns (missingOf t))

/-- The key ordering of sort_values by cell_id then frame: lexicographic on
the pair of integers. -/
def keyLe (a b : TrackRow) : Prop :=
  a.cell_id < b.cell_id ∨ (a.cell_id = b.cell_id ∧ a.frame ≤ b.frame)

instance : DecidableRel keyLe := fun a b =>
  inferInstanceAs
    (Decidable (a.cell_id < b.cell_id ∨ (a.cell_id = b.cell_id ∧ a.frame ≤ b.frame)))

instance : IsTotal TrackRow keyLe where
  total a b := by
    unfold keyLe
    rcases lt_trichotomy a.cell_id b.cell_id with h | h | h
    · exact Or.inl (Or.inl h)
    · rcases le_total a.frame b.frame with hf | hf
      · exact Or.inl (Or.inr ⟨h, hf⟩)
      · exact Or.inr (Or.inr ⟨h.symm, hf⟩)
    · exact Or.inr (Or.inl h)

instance : IsTrans TrackRow keyLe where
  trans a b c hab hbc := by
    unfold keyLe at *
    rcases hab with h1 | ⟨e1, f1⟩ <;> rcases hbc with h2 | ⟨e2, f2⟩
    · exact Or.inl (h1.trans h2)
    · exact Or.inl (e2 ▸ h1)
    · exact Or.inl (e1 ▸ h2)
    · exact Or.inr ⟨e1.trans e2, f1.trans f2⟩

/-- The sort key of a row: the pair of cell_id and frame. -/
def keyOf (r : TrackRow) : Int × Int := (r.cell_id, r.frame)

/-- Strict version of the key ordering. -/
def keyLt (a b : TrackRow) : Prop :=
  a.cell_id < b.cell_id ∨ (a.cell_id = b.cell_id ∧ a.frame < b.frame)

/-- Step 1 of compute_steps_for_tau: sort_values by cell_id then frame. A
two-column key makes pandas sort via numpy lexsort, an indirect stable sort,
so the model is a stable sort by the lexicographic key. -/
def sortTracks (rows : List TrackRow) : List TrackRow :=
  List.insertionSort keyLe rows

/-- The groupby cell_id plus shift by minus tau of compute_steps_for_tau,
followed by dropna: each row is paired with the tau-th later row of the same
cell_id in table order, and rows with no such partner are dropped. -/
def pairFuture (tau : Nat) : List TrackRow → List (TrackRow × TrackRow)
  | [] => []
  | r :: rest =>
    match (rest.filter (fun s => s.cell_id == r.cell_id)).get? (tau - 1) with
    | some f => (r, f) :: pairFuture tau rest
    | none => pairFuture tau rest

/-- One emitted step, from the DataFrame literal of compute_steps_for_tau:
start fields from the row, end fields from its future partner, displacements
and tau_min as end minus start, tau_frames copied verbatim. -/
def mkStep (r f : TrackRow) (tau : Int) : Step where
  cell_id := r.cell_id
  frame_start := r.frame
  t_start_min := r.t_min
  frame_end := f.frame
  t_end_min := f.t_min
  dx_um := f.x_um - r.x_um
  dy_um := f.y_um - r.y_um
  tau_frames := tau
  tau_min := f.t_min - r.t_min

/-- The rows compute_steps_for_tau returns on its success path. -/
def stepsOf (t : RawTable) (tau : Int) : List Step :=
  (pairFuture tau.toNat (sortTracks t.rows)).map (fun p => mkStep p.1 p.2 tau)

/-- compute_steps_for_tau of src/steps.py: validate, reject lags below one,
sort, pair each row with its partner tau frames later inside its cell_id
group, emit one step per paired row. -/
def compute_steps_for_tau (t : RawTable) (tau_frames : Int) :
    Except StepsError (List Step) :=
  match validate_tracks t with
  | Except.error e => Except.error e
  | Except.ok _ =>
    if tau_frames < 1 then Except.error StepsError.invalidLag
    else Except.ok (stepsOf t tau_frames)

/-- The loop of compute_steps_multi_tau: one block per lag, in the given
order, the first error aborting the whole call. -/
def collectBlocks (t : RawTable) : List Int → Except StepsError (List (List Step))
  | [] => Except.ok []
  | tau :: taus =>
    match compute_steps_for_tau t tau with
    | Except.error e => Except.error e
    | Except.ok s =>
      match collectBlocks t taus with
      | Except.error e => Except.error e
      | Except.ok bs => Except.ok (s :: bs)

/-- pandas.concat: raises ValueError (no objects to concatenate) on an empty
list of frames, otherwise concatenates the blocks in order. -/
def pdConcat (blocks : List (List Step)) : Except StepsError (List Step) :=
  if blocks.isEmpty then Except.error StepsError.noObjectsToConcatenate
  else Except.ok blocks.flatten

/-- compute_steps_multi_tau of src/steps.py: validate once, run the per-lag
extraction over taus in order, concatenate with pandas.concat. -/
def compute_steps_multi_tau (t : RawTable) (taus : List Int) :
    Except StepsError (List Step) :=
  match validate_tracks t with
  | Except.error e => Except.error e
  | Except.ok _ =>
    match collectBlocks t taus with
    | Except.error e => Except.error e
    | Except.ok blocks => pdConcat blocks

/-- The statistical median pandas computes: the middle element of the sorted
values for odd length, the average of the two middle elements for even
length. -/
def median (l : List ℚ) : ℚ :=
  let s := List.insertionSort (fun a b : ℚ => a ≤ b) l
  if s.length % 2 = 1 then s.getD (s.length / 2) 0
  else (s.getD (s.length / 2 - 1) 0 + s.getD (s.length / 2) 0) / 2

/-- summary_by_tau of src/steps.py: group by tau_frames with the group keys
sorted ascending (pandas groupby sorts its keys); n_steps is the group size,
n_cells the number of distinct cell_id values in the group, median_tau_min
the median of the group tau_min values. -/
def summary_by_tau (steps_all : List Step) : List SummaryRow :=
  let taus := List.insertionSort (fun a b : Int => a ≤ b)
    (steps_all.map Step.tau_frames).dedup
  taus.map (fun k =>
    let grp := steps_all.filter (fun s => s.tau_frames == k)
    { tau_frames := k
      n_steps := grp.length
      n_cells := ((grp.map Step.cell_id).dedup).length
      median_tau_min := median (grp.map Step.tau_min) })

/-- Step 2 of the reference algorithm of the spec: partition the sorted rows
into maximal consecutive runs of one cell_id each. -/
def groupRuns : List TrackRow → List (List TrackRow)
  | [] => []
  | [r] => [[r]]
  | r :: s :: rest =>
    match groupRuns (s :: rest) with
    | [] => [[r]]
    | g :: gs =>
      if s.cell_id == r.cell_id then (r :: g) :: gs else [r] :: g :: gs

/-- Step 3 of the reference algorithm of the spec: inside one partition, pair
the row at position i with the row at position i plus tau whenever that later
row exists. -/
def specPairs (tau : Nat) (part : List TrackRow) : List (TrackRow × TrackRow) :=
  (List.range part.length).filterMap (fun i =>
    (part.get? i).bind (fun r => (part.get? (i + tau)).map (fun f => (r, f))))

/-- The reference partition-and-pair extraction written from the words of the
spec: stable-sort by cell_id and frame, partition by cell_id, pair position i
with position i plus tau within each partition, emit a step per pair. -/
def specExtract (rows : List TrackRow) (tau : Int) : List Step :=
  (((groupRuns (sortTracks rows)).map (specPairs tau.toNat)).flatten).map
    (fun p => mkStep p.1 p.2 tau)

/-- Recursive form of the in-partition pairing: the head pairs with the row
tau positions later when it exists. -/
def pairAt (tau : Nat) : List TrackRow → List (TrackRow × TrackRow)
  | [] => []
  | r :: rest =>
    match rest.get? (tau - 1) with
    | some f => (r, f) :: pairAt tau rest
    | none => pairAt tau rest

/-- The three-point example trajectory of section 8 of the spec. -/
def sampleTable : RawTable where
  cols := ["cell_id", "frame", "t_min", "x_um", "y_um"]
  rows := [⟨1, 0, 0, 0, 0⟩, ⟨1, 1, 1, 1, 1⟩, ⟨1, 2, 2, 3, 3⟩]

/-- A table lacking the frame and x_um columns. -/
def missingTable : RawTable where
  cols := ["cell_id", "t_min", "y_um", "extra"]
  rows := []

/-! ## Structural lemmas on the pairing and the partition -/

theorem groupRuns_cons (r : TrackRow) (rest : List TrackRow) :
    groupRuns (r :: rest) =
      (r :: rest.takeWhile (fun s => s.cell_id == r.cell_id)) ::
        groupRuns (rest.dropWhile (fun s => s.cell_id == r.cell_id)) := by
  induction rest generalizing r with
  | nil => rfl
  | cons s t ih =>
    simp only [groupRuns, ih s, List.takeWhile_cons, List.dropWhile_cons]
    by_cases hs : (s.cell_id == r.cell_id) = true
    · have hcell : s.cell_id = r.cell_id := by simpa using hs
      simp [hs, hcell]
    · simp [hs]
      exact (ih s).symm

theorem pairFuture_cons (tau : Nat) (r : TrackRow) (rest : List TrackRow) :
    pairFuture tau (r :: rest) =
      match (rest.filter (fun s => s.cell_id == r.cell_id)).get? (tau - 1) with
      | some f => (r, f) :: pairFuture tau rest
      | none => pairFuture tau rest := rfl

theorem pairAt_cons (tau : Nat) (r : TrackRow) (rest : List TrackRow) :
    pairAt tau (r :: rest) =
      match rest.get? (tau - 1) with
      | some f => (r, f) :: pairAt tau rest
      | none => pairAt tau rest := rfl

theorem groupRuns_flatten : ∀ (l : List TrackRow), (groupRuns l).flatten = l := by
  have H : ∀ (n : Nat) (l : List TrackRow), l.length ≤ n → (groupRuns l).flatten = l := by
    intro n
    induction n with
    | zero =>
      intro l hl
      have hnil : l = [] := List.eq_nil_of_length_eq_zero (Nat.le_zero.mp hl)
      subst hnil; rfl
    | succ n ih =>
      intro l hl
      cases l with
      | nil => rfl
      | cons r rest =>
        have hr : rest.length ≤ n := by simp at hl; omega
        rw [groupRuns_cons, List.flatten_cons,
          ih _ (le_trans (List.dropWhile_sublist _).length_le hr)]
        simp [List.takeWhile_append_dropWhile]
  exact fun l => H l.length l le_rfl

theorem mem_dropWhile_cell_ne (r : TrackRow) (rest : List TrackRow) :
    List.Pairwise keyLe (r :: rest) →
      ∀ b ∈ rest.dropWhile (fun s => s.cell_id == r.cell_id), b.cell_id ≠ r.cell_id := by
  induction rest with
  | nil => intro _ b hb; simp at hb
  | cons s t ih =>
    intro hp b hb
    rw [List.dropWhile_cons] at hb
    by_cases hs : (s.cell_id == r.cell_id) = true
    · rw [if_pos hs] at hb
      have hp' : List.Pairwise keyLe (r :: t) := by
        rcases List.pairwise_cons.mp hp with ⟨h1, h2⟩
        exact List.pairwise_cons.mpr ⟨fun a ha => h1 a (List.mem_cons_of_mem s ha),
          (List.pairwise_cons.mp h2).2⟩
      exact ih hp' b hb
    · rw [if_neg hs] at hb
      have hrs : keyLe r s := (List.pairwise_cons.mp hp).1 s (List.mem_cons_self s t)
      have hne : s.cell_id ≠ r.cell_id := by simpa using hs
      have hlt : r.cell_id < s.cell_id := by
        rcases hrs with h | ⟨e, _⟩
        · exact h
        · exact absurd e.symm hne
      rcases List.mem_cons.mp hb with rfl | hbt
      · exact hne
      · have hsb : keyLe s b :=
          (List.pairwise_cons.mp (List.pairwise_cons.mp hp).2).1 b hbt
        have hsble : s.cell_id ≤ b.cell_id := by
          rcases hsb with h | ⟨e, _⟩
          · exact le_of_lt h
          · exact le_of_eq e
        intro hbc
        omega

theorem pairFuture_append (tau : Nat) (c : Int) :
    ∀ run rest, (∀ a ∈ run, a.cell_id = c) → (∀ b ∈ rest, b.cell_id ≠ c) →
      pairFuture tau (run ++ rest) = pairAt tau run ++ pairFuture tau rest := by
  intro run
  induction run with
  | nil =>
    intro rest _ _
    simp [pairAt]
  | cons r run ih =>
    intro rest hrun hrest
    have hrc : r.cell_id = c := hrun r (List.mem_cons_self r run)
    have hfilter : (run ++ rest).filter (fun s => s.cell_id == r.cell_id) = run := by
      rw [List.filter_append]
      have h1 : run.filter (fun s => s.cell_id == r.cell_id) = run := by
        apply List.filter_eq_self.mpr
        intro a ha
        have hac : a.cell_id = c := hrun a (List.mem_cons_of_mem r ha)
        simp [hac, hrc]
      have h2 : rest.filter (fun s => s.cell_id == r.cell_id) = [] := by
        apply List.filter_eq_nil_iff.mpr
        intro b hb
        have hbc : b.cell_id ≠ c := hrest b hb
        simp [hrc, hbc]
      rw [h1, h2, List.append_nil]
    have hihs : ∀ a ∈ run, a.cell_id = c := fun a ha => hrun a (List.mem_cons_of_mem r ha)
    rw [List.cons_append, pairFuture_cons, hfilter, pairAt_cons]
    cases run.get? (tau - 1) with
    | some f => exact congrArg (List.cons (r, f)) (ih rest hihs hrest)
    | none => exact ih rest hihs hrest

theorem pairFuture_eq_groupRuns (tau : Nat) :
    ∀ (l : List TrackRow), List.Pairwise keyLe l →
      pairFuture tau l = ((groupRuns l).map (pairAt tau)).flatten := by
  have H : ∀ (n : Nat) (l : List TrackRow), l.length ≤ n → List.Pairwise keyLe l →
      pairFuture tau l = ((groupRuns l).map (pairAt tau)).flatten := by
    intro n
    induction n with
    | zero =>
      intro l hl _
      have hnil : l = [] := List.eq_nil_of_length_eq_zero (Nat.le_zero.mp hl)
      subst hnil; rfl
    | succ n ih =>
      intro l hl hp
      cases l with
      | nil => rfl
      | cons r rest =>
        have hrl : rest.length ≤ n := by simp at hl; omega
        have hrun : ∀ a ∈ r :: rest.takeWhile (fun s => s.cell_id == r.cell_id),
            a.cell_id = r.cell_id := by
          intro a ha
          rcases List.mem_cons.mp ha with rfl | hat
          · rfl
          · simpa using List.mem_takeWhile_imp hat
        have hrest : ∀ b ∈ rest.dropWhile (fun s => s.cell_id == r.cell_id),
            b.cell_id ≠ r.cell_id := mem_dropWhile_cell_ne r rest hp
        have hsplit : r :: rest =
            (r :: rest.takeWhile (fun s => s.cell_id == r.cell_id)) ++
              rest.dropWhile (fun s => s.cell_id == r.cell_id) := by
          simp [List.takeWhile_append_dropWhile]
        rw [groupRuns_cons, List.map_cons, List.flatten_cons]
        rw [hsplit, pairFuture_append tau r.cell_id _ _ hrun hrest]
        congr 1
        apply ih _ (le_trans (List.dropWhile_sublist _).length_le hrl)
        exact List.Pairwise.sublist
          ((List.dropWhile_sublist _).trans (List.sublist_cons_self r rest)) hp
  exact fun l => H l.length l le_rfl

theorem specPairs_eq_pairAt (tau : Nat) (htau : 1 ≤ tau) :
    ∀ part, specPairs tau part = pairAt tau part := by
  intro part
  induction part with
  | nil => rfl
  | cons r rest ih =>
    have htau' : tau - 1 + 1 = tau := by omega
    have hcomp : ((fun i => ((r :: rest).get? i).bind
          (fun a => ((r :: rest).get? (i + tau)).map (fun f => (a, f)))) ∘ Nat.succ) =
        (fun i => (rest.get? i).bind
          (fun a => (rest.get? (i + tau)).map (fun f => (a, f)))) := by
      funext i
      have hadd : i + 1 + tau = (i + tau) + 1 := by omega
      simp only [Function.comp, Nat.succ_eq_add_one, hadd, List.get?_cons_succ]
    have hf0 : ((r :: rest).get? 0).bind
        (fun a => ((r :: rest).get? (0 + tau)).map (fun f => (a, f))) =
        (rest.get? (tau - 1)).map (fun f => (r, f)) := by
      have h0 : 0 + tau = (tau - 1) + 1 := by omega
      simp only [h0, List.get?_cons_succ, List.get?_cons_zero, Option.some_bind]
    show (List.range (rest.length + 1)).filterMap _ = _
    rw [List.range_succ_eq_map, List.filterMap_cons, List.filterMap_map, hcomp]
    have hrest : (List.range rest.length).filterMap
        (fun i => (rest.get? i).bind
          (fun a => (rest.get? (i + tau)).map (fun f => (a, f)))) = pairAt tau rest := ih
    rw [hf0, hrest]
    cases hg : rest.get? (tau - 1) with
    | some f =>
      rw [pairAt_cons, hg]
      rfl
    | none =>
      rw [pairAt_cons, hg]
      rfl

/-! ## The sort, validation and the success path -/

theorem sortTracks_sorted (rows : List TrackRow) :
    List.Pairwise keyLe (sortTracks rows) :=
  List.sorted_insertionSort keyLe rows

theorem sortTracks_perm (rows : List TrackRow) :
    (sortTracks rows).Perm rows :=
  List.perm_insertionSort keyLe rows

theorem missingOf_eq_nil (t : RawTable)
    (hcols : ∀ c ∈ REQUIRED_TRACK_COLS, c ∈ t.cols) :
    missingOf t = [] := by
  unfold missingOf
  have hfil : REQUIRED_TRACK_COLS.filter (fun c => !(t.cols.contains c)) = [] := by
    apply List.filter_eq_nil_iff.mpr
    intro c hc
    simp [hcols c hc]
  rw [hfil]
  rfl

theorem validate_tracks_ok (t : RawTable)
    (hcols : ∀ c ∈ REQUIRED_TRACK_COLS, c ∈ t.cols) :
    validate_tracks t = Except.ok () := by
  unfold validate_tracks
  rw [missingOf_eq_nil t hcols]
  rfl

theorem compute_ok (t : RawTable) (tau : Int)
    (hcols : ∀ c ∈ REQUIRED_TRACK_COLS, c ∈ t.cols) (htau : 1 ≤ tau) :
    compute_steps_for_tau t tau = Except.ok (stepsOf t tau) := by
  unfold compute_steps_for_tau
  rw [validate_tracks_ok t hcols, if_neg (by omega)]

theorem stepsOf_eq_specExtract (t : RawTable) (tau : Int) (htau : 1 ≤ tau) :
    stepsOf t tau = specExtract t.rows tau := by
  have hfun : specPairs tau.toNat = pairAt tau.toNat :=
    funext (specPairs_eq_pairAt tau.toNat (by omega))
  unfold stepsOf specExtract
  rw [pairFuture_eq_groupRuns tau.toNat _ (sortTracks_sorted t.rows), hfun]

theorem mem_pairFuture (tau : Nat) :
    ∀ (l : List TrackRow) (p : TrackRow × TrackRow), p ∈ pairFuture tau l →
      p.1 ∈ l ∧ p.2 ∈ l ∧ p.2.cell_id = p.1.cell_id := by
  intro l
  induction l with
  | nil => intro p hp; simp [pairFuture] at hp
  | cons r rest ih =>
    intro p hp
    rw [pairFuture_cons] at hp
    cases hg : (rest.filter (fun s => s.cell_id == r.cell_id)).get? (tau - 1) with
    | some f =>
      rw [hg] at hp
      rcases List.mem_cons.mp hp with rfl | hpp
      · have hf : f ∈ rest.filter (fun s => s.cell_id == r.cell_id) := List.get?_mem hg
        have hmf := List.mem_filter.mp hf
        exact ⟨List.mem_cons_self r rest, List.mem_cons_of_mem r hmf.1, by simpa using hmf.2⟩
      · have hres := ih p hpp
        exact ⟨List.mem_cons_of_mem r hres.1, List.mem_cons_of_mem r hres.2.1, hres.2.2⟩
    | none =>
      rw [hg] at hp
      have hres := ih p hp
      exact ⟨List.mem_cons_of_mem r hres.1, List.mem_cons_of_mem r hres.2.1, hres.2.2⟩

theorem pairAt_length (tau : Nat) (htau : 1 ≤ tau) :
    ∀ part : List TrackRow, (pairAt tau part).length = part.length - tau := by
  intro part
  induction part with
  | nil => simp [pairAt]
  | cons r rest ih =>
    rw [pairAt_cons]
    cases hg : rest.get? (tau - 1) with
    | some f =>
      have hlen : tau - 1 < rest.length := (List.get?_eq_some.mp hg).1
      simp only [List.length_cons, ih]
      omega
    | none =>
      have hlen : rest.length ≤ tau - 1 := List.get?_eq_none.mp hg
      simp only [List.length_cons, ih]
      omega

theorem groupRuns_runs : ∀ (l : List TrackRow), List.Pairwise keyLe l →
    ∀ g ∈ groupRuns l, ∃ c, g ≠ [] ∧ (∀ a ∈ g, a.cell_id = c) ∧
      g = l.filter (fun x => x.cell_id == c) := by
  have H : ∀ (n : Nat) (l : List TrackRow), l.length ≤ n → List.Pairwise keyLe l →
      ∀ g ∈ groupRuns l, ∃ c, g ≠ [] ∧ (∀ a ∈ g, a.cell_id = c) ∧
        g = l.filter (fun x => x.cell_id == c) := by
    intro n
    induction n with
    | zero =>
      intro l hl _ g hg
      have hnil : l = [] := List.eq_nil_of_length_eq_zero (Nat.le_zero.mp hl)
      subst hnil
      simp [groupRuns] at hg
    | succ n ih =>
      intro l hl hp g hg
      cases l with
      | nil => simp [groupRuns] at hg
      | cons r rest =>
        have hrl : rest.length ≤ n := by simp at hl; omega
        have hdw : ∀ b ∈ rest.dropWhile (fun s => s.cell_id == r.cell_id),
            b.cell_id ≠ r.cell_id := mem_dropWhile_cell_ne r rest hp
        have hsplit : rest = rest.takeWhile (fun s => s.cell_id == r.cell_id) ++
            rest.dropWhile (fun s => s.cell_id == r.cell_id) :=
          (List.takeWhile_append_dropWhile _ _).symm
        rw [groupRuns_cons] at hg
        rcases List.mem_cons.mp hg with rfl | hgs
        · refine ⟨r.cell_id, by simp, ?_, ?_⟩
          · intro a ha
            rcases List.mem_cons.mp ha with rfl | hat
            · rfl
            · simpa using List.mem_takeWhile_imp hat
          · rw [List.filter_cons, if_pos (by simp)]
            congr 1
            conv_rhs => rw [hsplit]
            rw [List.filter_append]
            have h1 : (rest.takeWhile (fun s => s.cell_id == r.cell_id)).filter
                (fun x => x.cell_id == r.cell_id) =
                rest.takeWhile (fun s => s.cell_id == r.cell_id) := by
              apply List.filter_eq_self.mpr
              intro a ha
              have ha' := List.mem_takeWhile_imp ha
              simpa using ha' 
            have h2 : (rest.dropWhile (fun s => s.cell_id == r.cell_id)).filter
                (fun x => x.cell_id == r.cell_id) = [] :=
              List.filter_eq_nil_iff.mpr (fun b hb => by simpa using hdw b hb)
            rw [h1, h2, List.append_nil]
        · have hpdw : List.Pairwise keyLe (rest.dropWhile (fun s => s.cell_id == r.cell_id)) :=
            List.Pairwise.sublist
              ((List.dropWhile_sublist _).trans (List.sublist_cons_self r rest)) hp
          rcases ih _ (le_trans (List.dropWhile_sublist _).length_le hrl) hpdw g hgs with
            ⟨c, hne, hmem, hfil⟩
          refine ⟨c, hne, hmem, ?_⟩
          have hcr : c ≠ r.cell_id := by
            rcases List.exists_mem_of_ne_nil g hne with ⟨a, ha⟩
            have hac : a.cell_id = c := hmem a ha
            have hadw : a ∈ rest.dropWhile (fun s => s.cell_id == r.cell_id) := by
              rw [hfil] at ha
              exact (List.mem_filter.mp ha).1
            exact hac ▸ hdw a hadw
          rw [List.filter_cons, if_neg (by simpa using fun h => hcr h.symm)]
          rw [hsplit, List.filter_append]
          have h1 : (rest.takeWhile (fun s => s.cell_id == r.cell_id)).filter
              (fun x => x.cell_id == c) = [] := by
            apply List.filter_eq_nil_iff.mpr
            intro a ha
            have ha' := List.mem_takeWhile_imp ha
            have har : a.cell_id = r.cell_id := by simpa using ha'
            simp [har]
            exact fun h => hcr h.symm
          rw [h1, List.nil_append, hfil]
  exact fun l => H l.length l le_rfl

/-! ## Row counts per trajectory -/

theorem groupRuns_length_sum (tau : Nat) : ∀ (l : List TrackRow), List.Pairwise keyLe l →
    ((groupRuns l).map (fun g => g.length - tau)).sum =
      ∑ c ∈ (l.map TrackRow.cell_id).toFinset,
        (l.countP (fun x => x.cell_id == c) - tau) := by
  have H : ∀ (n : Nat) (l : List TrackRow), l.length ≤ n → List.Pairwise keyLe l →
      ((groupRuns l).map (fun g => g.length - tau)).sum =
        ∑ c ∈ (l.map TrackRow.cell_id).toFinset,
          (l.countP (fun x => x.cell_id == c) - tau) := by
    intro n
    induction n with
    | zero =>
      intro l hl _
      have hnil : l = [] := List.eq_nil_of_length_eq_zero (Nat.le_zero.mp hl)
      subst hnil
      simp [groupRuns]
    | succ n ih =>
      intro l hl hp
      cases l with
      | nil => simp [groupRuns]
      | cons r rest =>
        have hrl : rest.length ≤ n := by simp at hl; omega
        have hdw : ∀ b ∈ rest.dropWhile (fun s => s.cell_id == r.cell_id),
            b.cell_id ≠ r.cell_id := mem_dropWhile_cell_ne r rest hp
        have htw : ∀ a ∈ rest.takeWhile (fun s => s.cell_id == r.cell_id),
            a.cell_id = r.cell_id := by
          intro a ha
          have ha' := List.mem_takeWhile_imp ha
          simpa using ha'
        have hsplit : rest = rest.takeWhile (fun s => s.cell_id == r.cell_id) ++
            rest.dropWhile (fun s => s.cell_id == r.cell_id) :=
          (List.takeWhile_append_dropWhile _ _).symm
        have hpdw : List.Pairwise keyLe (rest.dropWhile (fun s => s.cell_id == r.cell_id)) :=
          List.Pairwise.sublist
            ((List.dropWhile_sublist _).trans (List.sublist_cons_self r rest)) hp
        have hset : ((r :: rest).map TrackRow.cell_id).toFinset =
            insert r.cell_id
              (((rest.dropWhile (fun s => s.cell_id == r.cell_id)).map
                TrackRow.cell_id).toFinset) := by
          ext x
          simp only [List.mem_toFinset, List.map_cons, List.mem_cons, Finset.mem_insert,
            List.mem_map]
          constructor
          · rintro (rfl | ⟨a, ha, rfl⟩)
            · exact Or.inl rfl
            · rw [hsplit] at ha
              rcases List.mem_append.mp ha with hat | had
              · exact Or.inl (htw a hat)
              · exact Or.inr ⟨a, had, rfl⟩
          · rintro (rfl | ⟨a, ha, rfl⟩)
            · exact Or.inl rfl
            · refine Or.inr ⟨a, ?_, rfl⟩
              rw [hsplit]
              exact List.mem_append.mpr (Or.inr ha)
        have hnotin : r.cell_id ∉
            (((rest.dropWhile (fun s => s.cell_id == r.cell_id)).map
              TrackRow.cell_id).toFinset) := by
          simp only [List.mem_toFinset, List.mem_map, not_exists]
          rintro a ⟨ha, hac⟩
          exact hdw a ha hac
        have hcount : (r :: rest).countP (fun x => x.cell_id == r.cell_id) =
            (r :: rest.takeWhile (fun s => s.cell_id == r.cell_id)).length := by
          have hl2 : r :: rest = (r :: rest.takeWhile (fun s => s.cell_id == r.cell_id)) ++
              rest.dropWhile (fun s => s.cell_id == r.cell_id) := by
            rw [List.cons_append]
            exact congrArg (List.cons r) hsplit
          rw [hl2, List.countP_append]
          have h1 : (r :: rest.takeWhile (fun s => s.cell_id == r.cell_id)).countP
              (fun x => x.cell_id == r.cell_id) =
              (r :: rest.takeWhile (fun s => s.cell_id == r.cell_id)).length := by
            apply List.countP_eq_length.mpr
            intro a ha
            rcases List.mem_cons.mp ha with rfl | hat
            · simp
            · simp [htw a hat]
          have h2 : (rest.dropWhile (fun s => s.cell_id == r.cell_id)).countP
              (fun x => x.cell_id == r.cell_id) = 0 := by
            apply List.countP_eq_zero.mpr
            intro a ha
            simpa using hdw a ha
          rw [h1, h2, Nat.add_zero]
        have hcongr : ∀ c ∈ (((rest.dropWhile (fun s => s.cell_id == r.cell_id)).map
            TrackRow.cell_id).toFinset),
            (r :: rest).countP (fun x => x.cell_id == c) =
            (rest.dropWhile (fun s => s.cell_id == r.cell_id)).countP
              (fun x => x.cell_id == c) := by
          intro c hc
          have hcr : c ≠ r.cell_id := by
            intro h
            rw [h] at hc
            exact hnotin hc
          have hl2 : r :: rest = (r :: rest.takeWhile (fun s => s.cell_id == r.cell_id)) ++
              rest.dropWhile (fun s => s.cell_id == r.cell_id) := by
            rw [List.cons_append]
            exact congrArg (List.cons r) hsplit
          rw [hl2, List.countP_append]
          have h1 : (r :: rest.takeWhile (fun s => s.cell_id == r.cell_id)).countP
              (fun x => x.cell_id == c) = 0 := by
            apply List.countP_eq_zero.mpr
            intro a ha
            have hac : a.cell_id = r.cell_id := by
              rcases List.mem_cons.mp ha with rfl | hat
              · rfl
              · exact htw a hat
            simp [hac]
            exact fun h => hcr h.symm
          rw [h1, Nat.zero_add]
        rw [groupRuns_cons, List.map_cons, List.sum_cons, hset,
          Finset.sum_insert hnotin, hcount,
          ih _ (le_trans (List.dropWhile_sublist _).length_le hrl) hpdw]
        congr 1
        apply Finset.sum_congr rfl
        intro c hc
        rw [hcongr c hc]
  exact fun l => H l.length l le_rfl

/-! ## Stability of the sort -/

theorem keyLe_of_keyOf_eq (a b : TrackRow) (h : keyOf a = keyOf b) : keyLe a b := by
  have h1 : a.cell_id = b.cell_id := congrArg Prod.fst h
  have h2 : a.frame = b.frame := congrArg Prod.snd h
  exact Or.inr ⟨h1, le_of_eq h2⟩

theorem filter_orderedInsert_eq (x : TrackRow) (k : Int × Int) (hx : keyOf x = k) :
    ∀ s : List TrackRow,
      (List.orderedInsert keyLe x s).filter (fun r => decide (keyOf r = k)) =
        x :: s.filter (fun r => decide (keyOf r = k)) := by
  intro s
  induction s with
  | nil => simp [List.orderedInsert, hx]
  | cons y t ih =>
    by_cases hxy : keyLe x y
    · rw [List.orderedInsert, if_pos hxy, List.filter_cons, if_pos (by simp [hx])]
    · have hyk : keyOf y ≠ k := by
        intro hyk
        exact hxy (keyLe_of_keyOf_eq x y (hx.trans hyk.symm))
      rw [List.orderedInsert, if_neg hxy, List.filter_cons, if_neg (by simp [hyk]), ih,
        List.filter_cons, if_neg (by simp [hyk])]

theorem filter_orderedInsert_ne (x : TrackRow) (k : Int × Int) (hx : keyOf x ≠ k) :
    ∀ s : List TrackRow,
      (List.orderedInsert keyLe x s).filter (fun r => decide (keyOf r = k)) =
        s.filter (fun r => decide (keyOf r = k)) := by
  intro s
  induction s with
  | nil => simp [List.orderedInsert, hx]
  | cons y t ih =>
    by_cases hxy : keyLe x y
    · rw [List.orderedInsert, if_pos hxy, List.filter_cons, if_neg (by simp [hx])]
    · rw [List.orderedInsert, if_neg hxy, List.filter_cons, List.filter_cons, ih]

theorem sortTracks_stable_filter (rows : List TrackRow) (k : Int × Int) :
    (sortTracks rows).filter (fun r => decide (keyOf r = k)) =
      rows.filter (fun r => decide (keyOf r = k)) := by
  induction rows with
  | nil => rfl
  | cons x l ih =>
    show (List.orderedInsert keyLe x (sortTracks l)).filter _ = _
    by_cases hx : keyOf x = k
    · rw [filter_orderedInsert_eq x k hx, ih, List.filter_cons, if_pos (by simp [hx])]
    · rw [filter_orderedInsert_ne x k hx, ih, List.filter_cons, if_neg (by simp [hx])]

/-! ## Determinism of the sort on duplicate-free keys -/

theorem pairwise_keyLt_of_sorted (l : List TrackRow)
    (hs : List.Pairwise keyLe l)
    (hne : List.Pairwise (fun a b => keyOf a ≠ keyOf b) l) :
    List.Pairwise keyLt l := by
  refine (hs.and hne).imp ?_
  rintro a b ⟨hle, hab⟩
  rcases hle with h | ⟨e, hf⟩
  · exact Or.inl h
  · refine Or.inr ⟨e, lt_of_le_of_ne hf ?_⟩
    intro hframe
    exact hab (by simp [keyOf, e, hframe])

theorem sortTracks_eq_of_perm (rows1 rows2 : List TrackRow)
    (hperm : rows1.Perm rows2)
    (hkeys : List.Pairwise (fun a b => keyOf a ≠ keyOf b) rows2) :
    sortTracks rows1 = sortTracks rows2 := by
  have hsymm : ∀ {x y : TrackRow}, keyOf x ≠ keyOf y → keyOf y ≠ keyOf x :=
    fun h => h.symm
  have hkeys1 : List.Pairwise (fun a b => keyOf a ≠ keyOf b) rows1 :=
    (List.Perm.pairwise_iff hsymm hperm).mpr hkeys
  have h1 : List.Pairwise keyLt (sortTracks rows1) :=
    pairwise_keyLt_of_sorted _ (sortTracks_sorted rows1)
      ((List.Perm.pairwise_iff hsymm (sortTracks_perm rows1)).mpr hkeys1)
  have h2 : List.Pairwise keyLt (sortTracks rows2) :=
    pairwise_keyLt_of_sorted _ (sortTracks_sorted rows2)
      ((List.Perm.pairwise_iff hsymm (sortTracks_perm rows2)).mpr hkeys)
  have hpp : (sortTracks rows1).Perm (sortTracks rows2) :=
    (sortTracks_perm rows1).trans (hperm.trans (sortTracks_perm rows2).symm)
  haveI : IsAntisymm TrackRow keyLt := by
    constructor
    intro a b hab hba
    exfalso
    rcases hab with h1' | ⟨e1, f1⟩ <;> rcases hba with h2' | ⟨e2, f2⟩ <;> omega
  exact List.eq_of_perm_of_sorted hpp h1 h2

/-! ## Frame gaps along a trajectory -/

theorem chain_le : ∀ (l : List Int) (a b : Int),
    List.Pairwise (fun x y => x < y) (a :: (l ++ [b])) → a + l.length + 1 ≤ b := by
  intro l
  induction l with
  | nil =>
    intro a b h
    have hab : a < b := (List.pairwise_cons.mp h).1 b (by simp)
    simp
    omega
  | cons c l' ih =>
    intro a b h
    rcases List.pairwise_cons.mp h with ⟨hhead, htail⟩
    have hac : a < c := hhead c (by simp)
    have hcb : c + l'.length + 1 ≤ b := ih c b htail
    simp only [List.length_cons]
    push_cast
    omega

theorem chain_fill : ∀ (l : List Int) (a b : Int),
    List.Pairwise (fun x y => x < y) (a :: (l ++ [b])) → b = a + l.length + 1 →
      ∀ m : Int, a < m → m < b → m ∈ l := by
  intro l
  induction l with
  | nil =>
    intro a b _ heq m hm1 hm2
    simp at heq
    omega
  | cons c l' ih =>
    intro a b h heq m hm1 hm2
    rcases List.pairwise_cons.mp h with ⟨hhead, htail⟩
    have hac : a < c := hhead c (by simp)
    have hcb : c + l'.length + 1 ≤ b := chain_le l' c b htail
    have hlen : b = a + (l'.length + 1) + 1 := by
      simpa using heq
    have hc : c = a + 1 := by
      push_cast at hlen
      omega
    by_cases hmc : m = c
    · simp [hmc]
    · have hcm : c < m := by omega
      have hmem : m ∈ l' := ih c b htail (by omega) m hcm hm2
      simp [hmem]

theorem chain_bound_of_fill (l : List Int) (a b : Int) (hab : a < b)
    (hfill : ∀ m : Int, a < m → m < b → m ∈ l) : b - a - 1 ≤ l.length := by
  have hsub : Finset.Ioo a b ⊆ l.toFinset := by
    intro m hm
    rcases Finset.mem_Ioo.mp hm with ⟨h1, h2⟩
    rw [List.mem_toFinset]
    exact hfill m h1 h2
  have hcard := Finset.card_le_card hsub
  rw [Int.card_Ioo] at hcard
  have hfin := le_trans hcard (List.toFinset_card_le l)
  omega

theorem pairAt_decomp (tau : Nat) (htau : 1 ≤ tau) :
    ∀ (part : List TrackRow) (r f : TrackRow), (r, f) ∈ pairAt tau part →
      ∃ A B C, part = A ++ r :: (B ++ f :: C) ∧ B.length = tau - 1 := by
  intro part
  induction part with
  | nil => intro r f h; simp [pairAt] at h
  | cons x rest ih =>
    intro r f h
    rw [pairAt_cons] at h
    cases hg : rest.get? (tau - 1) with
    | some y =>
      rw [hg] at h
      rcases List.mem_cons.mp h with heq | hmem
      · rcases Prod.ext_iff.mp heq with ⟨h1, h2⟩
        dsimp at h1 h2
        subst h1
        subst h2
        have hlt : tau - 1 < rest.length := (List.get?_eq_some.mp hg).1
        have hy : rest.get ⟨tau - 1, hlt⟩ = f := (List.get?_eq_some.mp hg).2
        refine ⟨[], rest.take (tau - 1), rest.drop tau, ?_, ?_⟩
        · have hdrop : rest.drop (tau - 1) = f :: rest.drop tau := by
            have hd := List.drop_eq_getElem_cons hlt
            have hidx : rest[tau - 1] = f := hy
            rw [hidx] at hd
            have htau' : tau - 1 + 1 = tau := by omega
            rw [htau'] at hd
            exact hd
          rw [List.nil_append]
          have := List.take_append_drop (tau - 1) rest
          rw [hdrop] at this
          rw [this]
        · simp [List.length_take]
          omega
      · rcases ih r f hmem with ⟨A, B, C, hparts, hlen⟩
        exact ⟨x :: A, B, C, by rw [List.cons_append, hparts], hlen⟩
    | none =>
      rw [hg] at h
      rcases ih r f h with ⟨A, B, C, hparts, hlen⟩
      exact ⟨x :: A, B, C, by rw [List.cons_append, hparts], hlen⟩

theorem pairAt_frames (tau : Nat) (htau : 1 ≤ tau) (part : List TrackRow)
    (hmono : List.Pairwise (fun a b => a.frame < b.frame) part)
    (r f : TrackRow) (hmem : (r, f) ∈ pairAt tau part) :
    (r.frame + tau ≤ f.frame) ∧
      (f.frame = r.frame + tau ↔
        ∀ m : Int, r.frame < m → m < f.frame → ∃ q ∈ part, q.frame = m) := by
  obtain ⟨A, B, C, hparts, hlen⟩ := pairAt_decomp tau htau part r f hmem
  subst hparts
  rcases List.pairwise_append.mp hmono with ⟨hA, hrest, hAvs⟩
  rcases List.pairwise_cons.mp hrest with ⟨hr_all, hBfC⟩
  rcases List.pairwise_append.mp hBfC with ⟨hB, hfC, hBvs⟩
  rcases List.pairwise_cons.mp hfC with ⟨hf_all, hC⟩
  have hchain : List.Pairwise (fun x y => x < y)
      (r.frame :: (B.map TrackRow.frame ++ [f.frame])) := by
    apply List.pairwise_cons.mpr
    constructor
    · intro y hy
      rcases List.mem_append.mp hy with hyB | hyf
      · rcases List.mem_map.mp hyB with ⟨q, hq, rfl⟩
        exact hr_all q (List.mem_append.mpr (Or.inl hq))
      · have : y = f.frame := by simpa using hyf
        subst this
        exact hr_all f (List.mem_append.mpr (Or.inr (List.mem_cons_self f C)))
    · apply List.pairwise_append.mpr
      refine ⟨List.pairwise_map.mpr hB, by simp, ?_⟩
      intro x hx y hy
      rcases List.mem_map.mp hx with ⟨q, hq, rfl⟩
      have : y = f.frame := by simpa using hy
      subst this
      exact hBvs q hq f (List.mem_cons_self f C)
  have hmaplen : (B.map TrackRow.frame).length = tau - 1 := by
    rw [List.length_map, hlen]
  have hge : r.frame + tau ≤ f.frame := by
    have hc := chain_le (B.map TrackRow.frame) r.frame f.frame hchain
    rw [hmaplen] at hc
    omega
  refine ⟨hge, ?_, ?_⟩
  · intro heq m hm1 hm2
    have hbm : m ∈ B.map TrackRow.frame := by
      apply chain_fill (B.map TrackRow.frame) r.frame f.frame hchain _ m hm1 hm2
      rw [hmaplen]
      omega
    rcases List.mem_map.mp hbm with ⟨q, hqB, hqf⟩
    refine ⟨q, ?_, hqf⟩
    exact List.mem_append.mpr (Or.inr (List.mem_cons_of_mem r
      (List.mem_append.mpr (Or.inl hqB))))
  · intro hall
    have hfill : ∀ m : Int, r.frame < m → m < f.frame → m ∈ B.map TrackRow.frame := by
      intro m hm1 hm2
      rcases hall m hm1 hm2 with ⟨q, hq, hqf⟩
      rcases List.mem_append.mp hq with hqA | hq2
      · have := hAvs q hqA r (List.mem_cons_self r _)
        omega
      · rcases List.mem_cons.mp hq2 with rfl | hq3
        · omega
        · rcases List.mem_append.mp hq3 with hqB | hq4
          · exact List.mem_map.mpr ⟨q, hqB, hqf⟩
          · rcases List.mem_cons.mp hq4 with rfl | hqC
            · omega
            · have := hf_all q hqC
              omega
    have hb := chain_bound_of_fill (B.map TrackRow.frame) r.frame f.frame (by omega) hfill
    rw [hmaplen] at hb
    omega

theorem pairAt_mem (tau : Nat) (htau : 1 ≤ tau) (part : List TrackRow) (r f : TrackRow)
    (h : (r, f) ∈ pairAt tau part) : r ∈ part ∧ f ∈ part := by
  obtain ⟨A, B, C, hparts, _⟩ := pairAt_decomp tau htau part r f h
  subst hparts
  constructor <;> simp

/-! ## The claims -/

/-- C1: for every tracks table with the required columns and every integer
lag at least one, compute_steps_for_tau equals the reference
partition-and-pair extraction: the rows are stably sorted by cell_id and
frame, the partition groups are exactly the per-cell_id filters of the
sorted rows, and each emitted step pairs two rows of one cell_id with
dx_um, dy_um and tau_min the literal end-minus-start differences and
tau_frames copied from the argument. -/
theorem claim_C1 (t : RawTable) (tau : Int)
    (hcols : ∀ c ∈ REQUIRED_TRACK_COLS, c ∈ t.cols) (htau : 1 ≤ tau) :
    compute_steps_for_tau t tau = Except.ok (specExtract t.rows tau) ∧
    List.Pairwise keyLe (sortTracks t.rows) ∧ (sortTracks t.rows).Perm t.rows ∧
    (∀ g ∈ groupRuns (sortTracks t.rows), ∃ c, (∀ a ∈ g, a.cell_id = c) ∧
      g = (sortTracks t.rows).filter (fun x => x.cell_id == c)) ∧
    (∀ s ∈ specExtract t.rows tau, ∃ r f : TrackRow, r ∈ t.rows ∧ f ∈ t.rows ∧
      f.cell_id = r.cell_id ∧ s = mkStep r f tau ∧ s.cell_id = r.cell_id ∧
      s.frame_start = r.frame ∧ s.frame_end = f.frame ∧
      s.t_start_min = r.t_min ∧ s.t_end_min = f.t_min ∧
      s.dx_um = f.x_um - r.x_um ∧ s.dy_um = f.y_um - r.y_um ∧
      s.tau_frames = tau ∧ s.tau_min = f.t_min - r.t_min) := by
  refine ⟨?_, sortTracks_sorted t.rows, sortTracks_perm t.rows, ?_, ?_⟩
  · rw [compute_ok t tau hcols htau, stepsOf_eq_specExtract t tau htau]
  · intro g hg
    rcases groupRuns_runs (sortTracks t.rows) (sortTracks_sorted t.rows) g hg with
      ⟨c, _, hmem, hfil⟩
    exact ⟨c, hmem, hfil⟩
  · intro s hs
    rw [← stepsOf_eq_specExtract t tau htau] at hs
    rcases List.mem_map.mp hs with ⟨p, hp, rfl⟩
    rcases mem_pairFuture tau.toNat (sortTracks t.rows) p hp with ⟨h1, h2, h3⟩
    exact ⟨p.1, p.2, ((sortTracks_perm t.rows).mem_iff).mp h1,
      ((sortTracks_perm t.rows).mem_iff).mp h2, h3, rfl, rfl, rfl, rfl, rfl, rfl,
      rfl, rfl, rfl, rfl⟩

/-- C2: on a valid table the extraction succeeds and its row count equals
the sum over the distinct cell_id values of max(0, N_c minus k), where N_c
counts the rows of that trajectory. -/
theorem claim_C2 (t : RawTable) (k : Int)
    (hcols : ∀ c ∈ REQUIRED_TRACK_COLS, c ∈ t.cols) (hk : 1 ≤ k) :
    compute_steps_for_tau t k = Except.ok (stepsOf t k) ∧
    ((stepsOf t k).length : Int) =
      ∑ c ∈ (t.rows.map TrackRow.cell_id).toFinset,
        max 0 ((t.rows.countP (fun r => r.cell_id == c) : Int) - k) := by
  refine ⟨compute_ok t k hcols hk, ?_⟩
  have h1 : (stepsOf t k).length = (pairFuture k.toNat (sortTracks t.rows)).length := by
    unfold stepsOf
    rw [List.length_map]
  rw [h1, pairFuture_eq_groupRuns k.toNat _ (sortTracks_sorted t.rows),
    List.length_flatten, List.map_map]
  have hcomp : (List.length ∘ pairAt k.toNat) = fun g => g.length - k.toNat :=
    funext fun g => pairAt_length k.toNat (by omega) g
  rw [hcomp, groupRuns_length_sum k.toNat (sortTracks t.rows) (sortTracks_sorted t.rows)]
  have hset : ((sortTracks t.rows).map TrackRow.cell_id).toFinset =
      (t.rows.map TrackRow.cell_id).toFinset :=
    List.toFinset_eq_of_perm _ _ ((sortTracks_perm t.rows).map _)
  rw [hset, Nat.cast_sum]
  apply Finset.sum_congr rfl
  intro c _
  have hcnt : (sortTracks t.rows).countP (fun x => x.cell_id == c) =
      t.rows.countP (fun x => x.cell_id == c) :=
    List.Perm.countP_eq _ (sortTracks_perm t.rows)
  rw [hcnt]
  have hknn : ((k.toNat : Int)) = k := Int.toNat_of_nonneg (by omega)
  omega

/-- C5: on a table with the required columns, compute_steps_for_tau fails
with InvalidLag exactly when the lag is below one, and succeeds otherwise
with no partial output. -/
theorem claim_C5 (t : RawTable) (tau : Int)
    (hcols : ∀ c ∈ REQUIRED_TRACK_COLS, c ∈ t.cols) :
    (compute_steps_for_tau t tau = Except.error StepsError.invalidLag ↔ tau < 1) ∧
    (1 ≤ tau → compute_steps_for_tau t tau = Except.ok (stepsOf t tau)) := by
  constructor
  · constructor
    · intro h
      by_contra hlt
      push_neg at hlt
      rw [compute_ok t tau hcols hlt] at h
      exact Except.noConfusion h
    · intro h
      unfold compute_steps_for_tau
      rw [validate_tracks_ok t hcols, if_pos h]
  · exact fun h => compute_ok t tau hcols h

theorem collectBlocks_ok (t : RawTable)
    (hcols : ∀ c ∈ REQUIRED_TRACK_COLS, c ∈ t.cols) :
    ∀ taus : List Int, (∀ tau ∈ taus, 1 ≤ tau) →
      collectBlocks t taus = Except.ok (taus.map (fun tau => stepsOf t tau)) := by
  intro taus htaus
  induction taus with
  | nil => rfl
  | cons tau rest ih =>
    unfold collectBlocks
    rw [compute_ok t tau hcols (htaus tau (List.mem_cons_self tau rest)),
      ih (fun x hx => htaus x (List.mem_cons_of_mem tau hx))]
    rfl

/-- C3 as frozen fails at the empty list of lags: the concatenation of zero
blocks would be the empty table, but the code raises the ValueError of
pandas.concat given no objects. -/
theorem claim_C3_cex :
    ¬ (compute_steps_multi_tau sampleTable [] =
        Except.ok ((([] : List Int).map (fun tau => stepsOf sampleTable tau)).flatten)) := by
  intro h
  rw [show compute_steps_multi_tau sampleTable [] =
      Except.error StepsError.noObjectsToConcatenate from rfl] at h
  exact Except.noConfusion h

/-- C3 amended: for every valid table and every NONEMPTY list of lags all at
least one, the multi-lag extraction returns exactly the concatenation of the
per-lag blocks in the given order (duplicates kept); for the empty list the
code instead raises the pandas no-objects-to-concatenate error. -/
theorem claim_C3 (t : RawTable) (taus : List Int)
    (hcols : ∀ c ∈ REQUIRED_TRACK_COLS, c ∈ t.cols)
    (htaus : ∀ tau ∈ taus, 1 ≤ tau) (hne : taus ≠ []) :
    compute_steps_multi_tau t taus =
      Except.ok ((taus.map (fun tau => stepsOf t tau)).flatten) ∧
    (∀ tau ∈ taus, compute_steps_for_tau t tau = Except.ok (stepsOf t tau)) := by
  constructor
  · unfold compute_steps_multi_tau
    rw [validate_tracks_ok t hcols, collectBlocks_ok t hcols taus htaus]
    have hb : ¬ ((taus.map (fun tau => stepsOf t tau)).isEmpty = true) := by
      rw [List.isEmpty_iff, List.map_eq_nil_iff]
      exact hne
    show pdConcat (taus.map (fun tau => stepsOf t tau)) =
      Except.ok ((taus.map (fun tau => stepsOf t tau)).flatten)
    unfold pdConcat
    rw [if_neg hb]
  · exact fun tau h => compute_ok t tau hcols (htaus tau h)

/-- C4: contrary to the spec, an empty list of lags does not produce an
empty Steps table: the concatenation step raises the ValueError of
pandas.concat given no objects to concatenate. -/
theorem claim_C4_eval :
    compute_steps_multi_tau sampleTable [] =
      Except.error StepsError.noObjectsToConcatenate := rfl

/-- C6: a table missing required columns makes validation and both
extraction entry points fail with MissingColumns naming exactly the missing
columns in sorted order, whatever the lag; a table with all required columns
present passes validation, extra columns ignored. -/
theorem claim_C6 (t : RawTable) (tau : Int) (taus : List Int) :
    ((∃ c ∈ REQUIRED_TRACK_COLS, c ∉ t.cols) →
      ∃ names, validate_tracks t = Except.error (StepsError.missingColumns names) ∧
        compute_steps_for_tau t tau = Except.error (StepsError.missingColumns names) ∧
        compute_steps_multi_tau t taus = Except.error (StepsError.missingColumns names) ∧
        names.Pairwise strLe ∧ names.Nodup ∧
        (∀ c, c ∈ names ↔ (c ∈ REQUIRED_TRACK_COLS ∧ c ∉ t.cols))) ∧
    ((∀ c ∈ REQUIRED_TRACK_COLS, c ∈ t.cols) → validate_tracks t = Except.ok ()) := by
  constructor
  · rintro ⟨c0, hc0r, hc0m⟩
    have hperm : (missingOf t).Perm
        (REQUIRED_TRACK_COLS.filter (fun c => !(t.cols.contains c))) :=
      List.perm_insertionSort strLe _
    have hvne : (missingOf t).isEmpty = false := by
      cases he : (missingOf t).isEmpty
      · rfl
      · exfalso
        have hmem : c0 ∈ REQUIRED_TRACK_COLS.filter (fun c => !(t.cols.contains c)) :=
          List.mem_filter.mpr ⟨hc0r, by simpa using hc0m⟩
        have hmem' : c0 ∈ missingOf t := hperm.mem_iff.mpr hmem
        rw [List.isEmpty_iff.mp he] at hmem'
        simp at hmem'
    have hval : validate_tracks t = Except.error (StepsError.missingColumns (missingOf t)) := by
      unfold validate_tracks
      rw [hvne]
      rfl
    refine ⟨missingOf t, hval, ?_, ?_, ?_, ?_, ?_⟩
    · unfold compute_steps_for_tau
      rw [hval]
    · unfold compute_steps_multi_tau
      rw [hval]
    · exact List.sorted_insertionSort strLe _
    · have hreq : REQUIRED_TRACK_COLS.Nodup := by decide
      exact (hperm.nodup_iff).mpr (List.Nodup.filter _ hreq)
    · intro c
      rw [hperm.mem_iff, List.mem_filter]
      simp
  · exact validate_tracks_ok t

/-- C7: summary_by_tau produces one row per distinct tau_frames value with
the group row count, the count of distinct cell_id values and the median of
the group tau_min values, rows sorted ascending by tau_frames; the empty
table yields the empty summary without error. -/
theorem claim_C7 (steps_all : List Step) :
    summary_by_tau [] = [] ∧
    List.Pairwise (fun a b : Int => a < b)
      ((summary_by_tau steps_all).map SummaryRow.tau_frames) ∧
    (∀ k : Int, k ∈ (summary_by_tau steps_all).map SummaryRow.tau_frames ↔
      k ∈ steps_all.map Step.tau_frames) ∧
    (∀ row ∈ summary_by_tau steps_all,
      row.n_steps = (steps_all.filter (fun s => s.tau_frames == row.tau_frames)).length ∧
      row.n_cells = (((steps_all.filter (fun s => s.tau_frames == row.tau_frames)).map
        Step.cell_id).dedup).length ∧
      row.median_tau_min = median ((steps_all.filter
        (fun s => s.tau_frames == row.tau_frames)).map Step.tau_min)) := by
  have hmap : (summary_by_tau steps_all).map SummaryRow.tau_frames =
      List.insertionSort (fun a b : Int => a ≤ b) (steps_all.map Step.tau_frames).dedup := by
    unfold summary_by_tau
    rw [List.map_map]
    conv_rhs => rw [← List.map_id (List.insertionSort (fun a b : Int => a ≤ b)
      (steps_all.map Step.tau_frames).dedup)]
    apply List.map_congr_left
    intro a _
    rfl
  refine ⟨rfl, ?_, ?_, ?_⟩
  · rw [hmap]
    have hsorted := List.sorted_insertionSort (fun a b : Int => a ≤ b)
      (steps_all.map Step.tau_frames).dedup
    have hnodup : (List.insertionSort (fun a b : Int => a ≤ b)
        (steps_all.map Step.tau_frames).dedup).Nodup :=
      ((List.perm_insertionSort _ _).nodup_iff).mpr (List.nodup_dedup _)
    refine (List.Pairwise.and hsorted hnodup).imp ?_
    rintro a b ⟨hle, hne⟩
    exact lt_of_le_of_ne hle hne
  · intro k
    rw [hmap, (List.perm_insertionSort _ _).mem_iff, List.mem_dedup]
  · intro row hrow
    rcases List.mem_map.mp hrow with ⟨k, _, rfl⟩
    exact ⟨rfl, rfl, rfl⟩

/-- C8: on a table whose rows have pairwise distinct cell_id and frame
pairs, any permutation of the row order gives output identical, in order and
values, to running the extraction on the sorted rows. -/
theorem claim_C8 (cols : List String) (rows rows' : List TrackRow) (tau : Int)
    (hcols : ∀ c ∈ REQUIRED_TRACK_COLS, c ∈ cols) (htau : 1 ≤ tau)
    (hperm : rows'.Perm rows)
    (hkeys : List.Pairwise (fun a b => keyOf a ≠ keyOf b) rows) :
    compute_steps_for_tau ⟨cols, rows'⟩ tau =
      compute_steps_for_tau ⟨cols, sortTracks rows⟩ tau := by
  have h1 : sortTracks rows' = sortTracks rows := sortTracks_eq_of_perm rows' rows hperm hkeys
  have h2 : sortTracks (sortTracks rows) = sortTracks rows :=
    sortTracks_eq_of_perm (sortTracks rows) rows (sortTracks_perm rows) hkeys
  rw [compute_ok ⟨cols, rows'⟩ tau hcols htau,
    compute_ok ⟨cols, sortTracks rows⟩ tau hcols htau]
  show Except.ok ((pairFuture tau.toNat (sortTracks rows')).map
      (fun p => mkStep p.1 p.2 tau)) =
    Except.ok ((pairFuture tau.toNat (sortTracks (sortTracks rows))).map
      (fun p => mkStep p.1 p.2 tau))
  rw [h1, h2]

/-- C9: the sort compute_steps_for_tau performs in its first step is stable:
it sorts by the key, permutes the input, and ties on the key keep their
original relative order (the rows of any fixed key come out exactly as they
appeared in the input). -/
theorem claim_C9 (rows : List TrackRow) (k : Int × Int) :
    List.Pairwise keyLe (sortTracks rows) ∧ (sortTracks rows).Perm rows ∧
    (sortTracks rows).filter (fun r => decide (keyOf r = k)) =
      rows.filter (fun r => decide (keyOf r = k)) :=
  ⟨sortTracks_sorted rows, sortTracks_perm rows, sortTracks_stable_filter rows k⟩

/-- C10: on a valid table whose trajectories carry no duplicate frames,
every emitted step satisfies frame_end at least frame_start plus the lag,
hence frame_end strictly after frame_start, with equality exactly when every
intermediate integer frame occurs in that trajectory. -/
theorem claim_C10 (t : RawTable) (tau : Int)
    (hcols : ∀ c ∈ REQUIRED_TRACK_COLS, c ∈ t.cols) (htau : 1 ≤ tau)
    (hdist : t.rows.Pairwise (fun a b => a.cell_id = b.cell_id → a.frame ≠ b.frame)) :
    ∀ steps, compute_steps_for_tau t tau = Except.ok steps →
      ∀ s ∈ steps, s.frame_start + tau ≤ s.frame_end ∧ s.frame_start < s.frame_end ∧
        (s.frame_end = s.frame_start + tau ↔
          ∀ m : Int, s.frame_start < m → m < s.frame_end →
            ∃ q ∈ t.rows, q.cell_id = s.cell_id ∧ q.frame = m) := by
  intro steps hsteps s hs
  rw [compute_ok t tau hcols htau] at hsteps
  have hse : stepsOf t tau = steps := by injection hsteps
  subst hse
  rcases List.mem_map.mp hs with ⟨p, hp, rfl⟩
  obtain ⟨r, f⟩ := p
  rw [pairFuture_eq_groupRuns tau.toNat _ (sortTracks_sorted t.rows)] at hp
  rcases List.mem_flatten.mp hp with ⟨pl, hpl, hppl⟩
  rcases List.mem_map.mp hpl with ⟨g, hgruns, rfl⟩
  rcases groupRuns_runs (sortTracks t.rows) (sortTracks_sorted t.rows) g hgruns with
    ⟨c, _, hmemc, hfil⟩
  have hgsub : g.Sublist (sortTracks t.rows) := by
    rw [hfil]
    exact List.filter_sublist _
  have hsortedg : List.Pairwise keyLe g :=
    List.Pairwise.sublist hgsub (sortTracks_sorted t.rows)
  have hsymmd : ∀ {x y : TrackRow}, (x.cell_id = y.cell_id → x.frame ≠ y.frame) →
      (y.cell_id = x.cell_id → y.frame ≠ x.frame) :=
    fun h e hf => h e.symm hf.symm
  have hdists : (sortTracks t.rows).Pairwise
      (fun a b => a.cell_id = b.cell_id → a.frame ≠ b.frame) :=
    (List.Perm.pairwise_iff hsymmd (sortTracks_perm t.rows)).mpr hdist
  have hdistg := List.Pairwise.sublist hgsub hdists
  have hmono : List.Pairwise (fun a b => a.frame < b.frame) g := by
    apply List.Pairwise.imp_of_mem ?_ (hsortedg.and hdistg)
    rintro a b ha hb ⟨hle, hd⟩
    have hac := hmemc a ha
    have hbc := hmemc b hb
    have he : a.cell_id = b.cell_id := hac.trans hbc.symm
    have hfne := hd he
    rcases hle with h | ⟨e, hf⟩
    · omega
    · omega
  have htn1 : 1 ≤ tau.toNat := by omega
  have hframes := pairAt_frames tau.toNat htn1 g hmono r f hppl
  have hrg : r ∈ g := (pairAt_mem tau.toNat htn1 g r f hppl).1
  have hrc : r.cell_id = c := hmemc r hrg
  refine ⟨?_, ?_, ?_⟩
  · show r.frame + tau ≤ f.frame
    have h1 := hframes.1
    omega
  · show r.frame < f.frame
    have h1 := hframes.1
    omega
  · show f.frame = r.frame + tau ↔
      ∀ m : Int, r.frame < m → m < f.frame →
        ∃ q ∈ t.rows, q.cell_id = r.cell_id ∧ q.frame = m
    constructor
    · intro heq m h1 h2
      rcases hframes.2.mp (by omega) m h1 h2 with ⟨q, hqg, hqf⟩
      refine ⟨q, ?_, ?_, hqf⟩
      · exact ((sortTracks_perm t.rows).mem_iff).mp (hgsub.subset hqg)
      · exact (hmemc q hqg).trans hrc.symm
    · intro hall
      have heqn : f.frame = r.frame + (tau.toNat : Int) := by
        apply hframes.2.mpr
        intro m h1 h2
        rcases hall m h1 h2 with ⟨q, hqrows, hqc, hqf⟩
        have hqs : q ∈ sortTracks t.rows := ((sortTracks_perm t.rows).mem_iff).mpr hqrows
        have hqcc : q.cell_id = c := hqc.trans hrc
        have hqg : q ∈ g := by
          rw [hfil]
          exact List.mem_filter.mpr ⟨hqs, by simp [hqcc]⟩
        exact ⟨q, hqg, hqf⟩
      omega

/-! ## Witnesses at concrete inputs -/

theorem claim_C1_witness :
    compute_steps_for_tau sampleTable 1 = Except.ok (specExtract sampleTable.rows 1) :=
  (claim_C1 sampleTable 1 (by decide) (by decide)).1

theorem claim_C2_witness :
    compute_steps_for_tau sampleTable 1 = Except.ok (stepsOf sampleTable 1) ∧
    ((stepsOf sampleTable 1).length : Int) =
      ∑ c ∈ (sampleTable.rows.map TrackRow.cell_id).toFinset,
        max 0 ((sampleTable.rows.countP (fun r => r.cell_id == c) : Int) - 1) :=
  claim_C2 sampleTable 1 (by decide) (by decide)

theorem claim_C3_witness :
    compute_steps_multi_tau sampleTable [1, 2] =
      Except.ok ((([1, 2] : List Int).map (fun tau => stepsOf sampleTable tau)).flatten) :=
  (claim_C3 sampleTable [1, 2] (by decide) (by decide) (by decide)).1

theorem claim_C5_witness :
    compute_steps_for_tau sampleTable 0 = Except.error StepsError.invalidLag :=
  (claim_C5 sampleTable 0 (by decide)).1.mpr (by decide)

theorem claim_C8_witness :
    compute_steps_for_tau ⟨REQUIRED_TRACK_COLS, [⟨1, 1, 1, 1, 1⟩, ⟨1, 0, 0, 0, 0⟩]⟩ 1 =
      compute_steps_for_tau
        ⟨REQUIRED_TRACK_COLS, sortTracks [⟨1, 0, 0, 0, 0⟩, ⟨1, 1, 1, 1, 1⟩]⟩ 1 :=
  claim_C8 REQUIRED_TRACK_COLS [⟨1, 0, 0, 0, 0⟩, ⟨1, 1, 1, 1, 1⟩]
    [⟨1, 1, 1, 1, 1⟩, ⟨1, 0, 0, 0, 0⟩] 1
    (by decide) (by decide) (List.Perm.swap _ _ _) (by decide)

theorem claim_C10_witness :
    (mkStep ⟨1, 0, 0, 0, 0⟩ ⟨1, 1, 1, 1, 1⟩ 1).frame_start + 1 ≤
      (mkStep ⟨1, 0, 0, 0, 0⟩ ⟨1, 1, 1, 1, 1⟩ 1).frame_end ∧
    (mkStep ⟨1, 0, 0, 0, 0⟩ ⟨1, 1, 1, 1, 1⟩ 1).frame_start <
      (mkStep ⟨1, 0, 0, 0, 0⟩ ⟨1, 1, 1, 1, 1⟩ 1).frame_end ∧
    ((mkStep ⟨1, 0, 0, 0, 0⟩ ⟨1, 1, 1, 1, 1⟩ 1).frame_end =
        (mkStep ⟨1, 0, 0, 0, 0⟩ ⟨1, 1, 1, 1, 1⟩ 1).frame_start + 1 ↔
      ∀ m : Int, (mkStep ⟨1, 0, 0, 0, 0⟩ ⟨1, 1, 1, 1, 1⟩ 1).frame_start < m →
        m < (mkStep ⟨1, 0, 0, 0, 0⟩ ⟨1, 1, 1, 1, 1⟩ 1).frame_end →
        ∃ q ∈ sampleTable.rows,
          q.cell_id = (mkStep ⟨1, 0, 0, 0, 0⟩ ⟨1, 1, 1, 1, 1⟩ 1).cell_id ∧ q.frame = m) :=
  claim_C10 sampleTable 1 (by decide) (by decide) (by decide) (stepsOf sampleTable 1)
    (compute_ok sampleTable 1 (by decide) (by decide))
    (mkStep ⟨1, 0, 0, 0, 0⟩ ⟨1, 1, 1, 1, 1⟩ 1) (by exact List.mem_cons_self _ _)

end CellIrrev
